import Mathlib

/-!
# Customer analysis (`customeranalysis/treat_export.go`)

A shallow embedding of the in-memory part of the customer analysis pipeline:
sales aggregation, ranking, the two quantile bucketings, the above-average
filter and the reconciliation of the dated top-customer table.

Conventions of the embedding.

* `float64` values are exact rationals (`ℚ`). The sales aggregation and the two
  bucketings are stated over exact numbers; the above-average filter, whose outcome
  turns on the rounding of the mean, is computed with `float64` arithmetic
  (`Float64`: round to nearest, ties to even, overflow to an infinity).
* Go `int` values are `Int`; list positions and counters are `Nat`.
* A Go `map[K]V` is an association list holding one entry per key, in order of
  first insertion. Go leaves the iteration order of a map unspecified, so
  statements about a slice that is filled by ranging over a map are made for
  every permutation of the modelled order.
* A run-time panic (integer division by zero, index out of range) is `none`.
* The SQL store is explicit state: a table is the list of its rows and every
  statement is assumed to succeed.
-/

namespace customeranalysis

/-! ## Data model -/

structure CustomerEvent where
  CustomerID : Int
  ContentID : Int
  Quantity : Int
  deriving DecidableEq, Repr

structure Customer where
  CustomerID : Int
  Information : String
  TotalSales : ℚ
  deriving DecidableEq, Repr

structure QuantileInfo where
  NumberOfCustomers : Nat
  MaxSales : ℚ
  deriving DecidableEq, Repr

/-! ## Go maps -/

/-- Lookup `m[k]` in the comma-ok form: `none` when the key is absent. -/
def mapGet {K V : Type} [DecidableEq K] : List (K × V) → K → Option V
  | [], _ => none
  | (k', v) :: rest, k => if k' = k then some v else mapGet rest k

/-- Assignment `m[k] = v`: overwrite the entry of `k`, or add one at the end. -/
def mapSet {K V : Type} [DecidableEq K] : List (K × V) → K → V → List (K × V)
  | [], k, v => [(k, v)]
  | (k', v') :: rest, k, v =>
    if k' = k then (k, v) :: rest else (k', v') :: mapSet rest k v

/-- The values met by `for _, v := range m`. -/
def mapValues {K V : Type} (m : List (K × V)) : List V := m.map Prod.snd

/-- The keys met by `for k := range m`. -/
def mapKeys {K V : Type} (m : List (K × V)) : List K := m.map Prod.fst

/-! ## Sales aggregation -/

/-- One iteration of the loop over the events in `MakeCustomerSales`. -/
def MakeCustomerSales.step (customerData : List (Int × String))
    (contentPrices : List (Int × ℚ)) (customerSales : List (Int × Customer))
    (event : CustomerEvent) : List (Int × Customer) :=
  match mapGet contentPrices event.ContentID with
  | none => customerSales
  | some price =>
    let totalSale := price * (event.Quantity : ℚ)
    match mapGet customerSales event.CustomerID with
    | some cust =>
      mapSet customerSales event.CustomerID
        { cust with TotalSales := cust.TotalSales + totalSale }
    | none =>
      mapSet customerSales event.CustomerID
        { CustomerID := event.CustomerID
          Information := (mapGet customerData event.CustomerID).getD ""
          TotalSales := totalSale }

/-- The map `customerSales` after the loop over the events. -/
def MakeCustomerSales.table (events : List CustomerEvent)
    (customerData : List (Int × String)) (contentPrices : List (Int × ℚ)) :
    List (Int × Customer) :=
  events.foldl (MakeCustomerSales.step customerData contentPrices) []

/-- The slice returned by `MakeCustomerSales`, in the modelled iteration order. -/
def MakeCustomerSales (events : List CustomerEvent)
    (customerData : List (Int × String)) (contentPrices : List (Int × ℚ)) :
    List Customer :=
  mapValues (MakeCustomerSales.table events customerData contentPrices)

/-- The event's content has an entry in the price table. -/
def hasPrice (contentPrices : List (Int × ℚ)) (e : CustomerEvent) : Bool :=
  (mapGet contentPrices e.ContentID).isSome

/-- The value `price(ContentID) × Quantity` of an event. -/
def eventValue (contentPrices : List (Int × ℚ)) (e : CustomerEvent) : ℚ :=
  (mapGet contentPrices e.ContentID).getD 0 * (e.Quantity : ℚ)

/-- Sum of `price × quantity` over the priced events of a list. -/
def pricedTotal (contentPrices : List (Int × ℚ)) (events : List CustomerEvent) : ℚ :=
  ((events.filter (hasPrice contentPrices)).map (eventValue contentPrices)).sum

/-- Sum of `price × quantity` over the priced events of one customer. -/
def customerTotal (contentPrices : List (Int × ℚ)) (events : List CustomerEvent)
    (id : Int) : ℚ :=
  pricedTotal contentPrices (events.filter (fun e => decide (e.CustomerID = id)))

/-- Some event of the customer has a content with a known price. -/
def hasPricedEvent (contentPrices : List (Int × ℚ)) (events : List CustomerEvent)
    (id : Int) : Bool :=
  events.any (fun e => decide (e.CustomerID = id) && hasPrice contentPrices e)

/-! ## Ranking -/

/-- Insertion of one element into a slice already ordered by `less`. -/
def sortSlice.insert {α : Type} (less : α → α → Bool) (a : α) : List α → List α
  | [] => [a]
  | b :: l => if less a b then a :: b :: l else b :: sortSlice.insert less a l

/-- The library call `sort.Slice(s, less)`, taken as an insertion sort driven by the
comparator `less` that the caller passes. -/
def sortSlice {α : Type} (less : α → α → Bool) : List α → List α
  | [] => []
  | a :: l => sortSlice.insert less a (sortSlice less l)

/-- The comparator passed to `sort.Slice` in `fetchCustomers`:
`customers[i].TotalSales > customers[j].TotalSales`. -/
def fetchCustomers.less (ci cj : Customer) : Bool := decide (ci.TotalSales > cj.TotalSales)

/-- The ranking step of `fetchCustomers` on the aggregated customers. -/
def fetchCustomers.rank (customers : List Customer) : List Customer :=
  sortSlice fetchCustomers.less customers

/-- The customers returned by `fetchCustomers`, given the three fetched inputs. -/
def fetchCustomers (events : List CustomerEvent) (customerData : List (Int × String))
    (contentPrices : List (Int × ℚ)) : List Customer :=
  fetchCustomers.rank (MakeCustomerSales events customerData contentPrices)

/-! ## Go primitives -/

/-- The conversion `int(0.025 * float64(n))`. The constant `0.025` is rounded up by
less than one part in `10^16` when taken as a `float64`, so for every slice length the
truncated product is `n / 40`. -/
def fortieth (n : Nat) : Nat := n / 40

/-- Integer division `a / b` of Go: a run-time panic when the divisor is zero. -/
def goDiv (a b : Nat) : Option Nat := if b = 0 then none else some (a / b)

/-- Slice indexing `s[i]` of Go: a run-time panic when the index is out of range. -/
def goIndex {α : Type} (s : List α) (i : Int) : Option α :=
  if 0 ≤ i ∧ i < (s.length : Int) then s[i.toNat]? else none

/-- Decimal digits of `n`, padded on the left with zeros to `width` characters. -/
def padDigits (width n : Nat) : String :=
  String.mk (List.replicate (width - (toString n).length) '0') ++ toString n

/-- The verb `%.<prec>f` of `fmt.Sprintf` on an exact value: `prec` decimals, rounded
half to even, with a leading minus sign for a negative value. -/
def fmtFixed (prec : Nat) (q : ℚ) : String :=
  let scaled : ℚ := |q| * (10 : ℚ) ^ prec
  let lower : Nat := (Rat.floor scaled).toNat
  let rest : ℚ := scaled - (lower : ℚ)
  let n : Nat := if rest > 1 / 2 ∨ (rest = 1 / 2 ∧ lower % 2 = 1) then lower + 1 else lower
  (if q < 0 then "-" else "") ++ toString (n / 10 ^ prec) ++ "." ++
    padDigits prec (n % 10 ^ prec)

/-- A `float64` value: a finite rational, an infinity or NaN. The sign of a zero is
not kept. -/
inductive Float64 where
  | finite (q : ℚ)
  | posInf
  | negInf
  | nan
  deriving DecidableEq, Repr

/-- The power `2 ^ e` for an integer exponent. -/
def pow2 (e : Int) : ℚ :=
  if 0 ≤ e then ((2 ^ e.toNat : Nat) : ℚ) else 1 / ((2 ^ (-e).toNat : Nat) : ℚ)

/-- The number of binary digits of `n`; `fuel` bounds the number of halvings. -/
def bitLength : Nat → Nat → Nat
  | 0, _ => 0
  | fuel + 1, n => if n = 0 then 0 else bitLength fuel (n / 2) + 1

/-- The exponent `e` with `2 ^ e ≤ a < 2 ^ (e + 1)`, for a positive `a`. -/
def floorLog2 (a : ℚ) : Int :=
  let d : Int :=
    (bitLength a.num.natAbs a.num.natAbs : Int) - (bitLength a.den a.den : Int)
  if pow2 d ≤ a then d else d - 1

/-- The integer nearest to a non-negative `x`, a tie going to the even one. -/
def roundHalfEven (x : ℚ) : Nat :=
  let lower : Nat := (Rat.floor x).toNat
  let rest : ℚ := x - (lower : ℚ)
  if rest > 1 / 2 ∨ (rest = 1 / 2 ∧ lower % 2 = 1) then lower + 1 else lower

/-- The `float64` nearest to an exact value: 53 significant bits, ties to even,
subnormal below `2 ^ (-1022)`, an infinity from `2 ^ 1024` on. -/
def Float64.round (q : ℚ) : Float64 :=
  if q = 0 then .finite 0
  else
    let a : ℚ := |q|
    let e : Int := max (floorLog2 a) (-1022)
    let quantum : ℚ := pow2 (e - 52)
    let r : ℚ := (roundHalfEven (a / quantum) : ℚ) * quantum
    if pow2 1024 ≤ r then (if q < 0 then .negInf else .posInf)
    else .finite (if q < 0 then -r else r)

/-- The conversion `float64(n)` of a length. -/
def Float64.ofNat (n : Nat) : Float64 := Float64.round (n : ℚ)

/-- The sum `a + b` of two `float64` values. -/
def Float64.add : Float64 → Float64 → Float64
  | .finite a, .finite b => Float64.round (a + b)
  | .nan, _ => .nan
  | _, .nan => .nan
  | .posInf, .negInf => .nan
  | .negInf, .posInf => .nan
  | .posInf, _ => .posInf
  | _, .posInf => .posInf
  | .negInf, _ => .negInf
  | _, .negInf => .negInf

/-- The quotient `a / b` of two `float64` values; a zero divisor is `+0`. -/
def Float64.div : Float64 → Float64 → Float64
  | .finite a, .finite b =>
    if b = 0 then (if a = 0 then .nan else if a < 0 then .negInf else .posInf)
    else Float64.round (a / b)
  | .nan, _ => .nan
  | _, .nan => .nan
  | .finite _, _ => .finite 0
  | .posInf, .finite b => if b < 0 then .negInf else .posInf
  | .negInf, .finite b => if b < 0 then .posInf else .negInf
  | _, _ => .nan

/-- The comparison `a < b` of two `float64` values, false when either is NaN. -/
def Float64.lt : Float64 → Float64 → Bool
  | .finite a, .finite b => decide (a < b)
  | .nan, _ => false
  | _, .nan => false
  | .negInf, .negInf => false
  | .negInf, _ => true
  | _, .negInf => false
  | .posInf, _ => false
  | _, .posInf => true

/-- The zero value of `QuantileInfo`, read from a map for an absent key. -/
def QuantileInfo.zero : QuantileInfo := { NumberOfCustomers := 0, MaxSales := 0 }

/-- The two updates of a bucket for one customer: count it and raise `MaxSales`. -/
def QuantileInfo.add (info : QuantileInfo) (c : Customer) : QuantileInfo :=
  let info := { info with NumberOfCustomers := info.NumberOfCustomers + 1 }
  if c.TotalSales > info.MaxSales then { info with MaxSales := c.TotalSales } else info

/-- Sum of `NumberOfCustomers` over the buckets of a map. -/
def totalCount (m : List (String × QuantileInfo)) : Nat :=
  ((mapValues m).map QuantileInfo.NumberOfCustomers).sum

/-! ## Scheme A: buckets by rank -/

/-- The key `fmt.Sprintf("%f%% - %f%%", 2.5*float64(index), 2.5*float64(index+1))`. -/
def createAndPopulateQuantilesTable.label (index : Nat) : String :=
  fmtFixed 6 (5 / 2 * (index : ℚ)) ++ "% - " ++ fmtFixed 6 (5 / 2 * ((index + 1 : Nat) : ℚ)) ++ "%"

/-- The bucket index of rank `i`: `i / quantileSize`, forced to `39` from `40` on. -/
def createAndPopulateQuantilesTable.index (quantileSize i : Nat) : Option Nat :=
  match goDiv i quantileSize with
  | none => none
  | some index => some (if index ≥ 40 then 39 else index)

/-- One iteration of the loop over the ranked customers. -/
def createAndPopulateQuantilesTable.step (quantileSize : Nat)
    (Map : List (String × QuantileInfo)) (i : Nat) (c : Customer) :
    Option (List (String × QuantileInfo)) :=
  match createAndPopulateQuantilesTable.index quantileSize i with
  | none => none
  | some index =>
    let quantile := createAndPopulateQuantilesTable.label index
    let info := (mapGet Map quantile).getD QuantileInfo.zero
    some (mapSet Map quantile (info.add c))

/-- The loop `for i, c := range customers`, from position `i` on. -/
def createAndPopulateQuantilesTable.loop (quantileSize : Nat) :
    Nat → List Customer → List (String × QuantileInfo) → Option (List (String × QuantileInfo))
  | _, [], Map => some Map
  | i, c :: rest, Map =>
    match createAndPopulateQuantilesTable.step quantileSize Map i c with
    | none => none
    | some Map' => createAndPopulateQuantilesTable.loop quantileSize (i + 1) rest Map'

/-- The bucket map `Map` built by `createAndPopulateQuantilesTable`; `none` when the
loop panics. The statements that store the map in `Quantilesdata` are left out. -/
def createAndPopulateQuantilesTable (customers : List Customer) :
    Option (List (String × QuantileInfo)) :=
  createAndPopulateQuantilesTable.loop (fortieth customers.length) 0 customers []

/-- The customers that the loop files under the key `quantile`. -/
def createAndPopulateQuantilesTable.members (customers : List Customer) (quantile : String) :
    List Customer :=
  (customers.enum.filter (fun p =>
    match createAndPopulateQuantilesTable.index (fortieth customers.length) p.1 with
    | none => false
    | some index => decide (createAndPopulateQuantilesTable.label index = quantile))).map Prod.snd

/-- The customers of `rest`, standing at the ranks `i, i + 1, …`, that the loop files
under the key `quantile`. -/
def createAndPopulateQuantilesTable.membersFrom (quantileSize i : Nat)
    (rest : List Customer) (quantile : String) : List Customer :=
  ((rest.enumFrom i).filter (fun p =>
    match createAndPopulateQuantilesTable.index quantileSize p.1 with
    | none => false
    | some index => decide (createAndPopulateQuantilesTable.label index = quantile))).map Prod.snd

/-- The entry of a key after the customers of `l` are filed under it one by one,
`o` being what the map held for the key before. -/
def QuantileInfo.fileUnder (o : Option QuantileInfo) : List Customer → Option QuantileInfo
  | [] => o
  | c :: l => QuantileInfo.fileUnder (some ((o.getD QuantileInfo.zero).add c)) l

/-! ## Scheme B: buckets by sales value -/

/-- The bound `minCA + rangePerQuantile * float64(i)`. -/
def quantileBYCA.bound (minCA rangePerQuantile : ℚ) (i : Nat) : ℚ :=
  minCA + rangePerQuantile * (i : ℚ)

/-- The membership test `c.TotalSales > startRange && c.TotalSales <= endRange`. -/
def quantileBYCA.inRange (startRange endRange : ℚ) (c : Customer) : Bool :=
  decide (c.TotalSales > startRange) && decide (c.TotalSales ≤ endRange)

/-- The inner loop over the customers for one range. -/
def quantileBYCA.scan (startRange endRange : ℚ) (info : QuantileInfo)
    (customers : List Customer) : QuantileInfo :=
  customers.foldl
    (fun info c => if quantileBYCA.inRange startRange endRange c then info.add c else info) info

/-- One iteration of the loop `for i := 0; i < 40; i++`. -/
def quantileBYCA.step (customers : List Customer) (minCA rangePerQuantile : ℚ)
    (quantileMap : List (String × QuantileInfo)) (i : Nat) : List (String × QuantileInfo) :=
  let startRange := quantileBYCA.bound minCA rangePerQuantile i
  let endRange := quantileBYCA.bound minCA rangePerQuantile (i + 1)
  let quantile := fmtFixed 2 startRange ++ " - " ++ fmtFixed 2 endRange
  let info := (mapGet quantileMap quantile).getD QuantileInfo.zero
  mapSet quantileMap quantile (quantileBYCA.scan startRange endRange info customers)

/-- The bucket map `quantileMap` built by `quantileBYCA`; `none` when an indexing
panics. The statements that store the map in `Quantiles_BY_CA` are left out. -/
def quantileBYCA (customers : List Customer) : Option (List (String × QuantileInfo)) :=
  match goIndex customers 0 with
  | none => none
  | some first =>
    match goIndex customers ((customers.length : Int) - 1) with
    | none => none
    | some last =>
      let maxCA := first.TotalSales
      let minCA := last.TotalSales
      let rangePerQuantile := (maxCA - minCA) / 40
      some ((List.range 40).foldl (quantileBYCA.step customers minCA rangePerQuantile) [])

/-- The indices `i < 40` whose range `(start, end]` holds the customer's sales, for
the bounds that `quantileBYCA` derives from the first and the last customer. -/
def quantileBYCA.rangesOf (customers : List Customer) (c : Customer) : List Nat :=
  match goIndex customers 0, goIndex customers ((customers.length : Int) - 1) with
  | some first, some last =>
    (List.range 40).filter (fun i =>
      quantileBYCA.inRange
        (quantileBYCA.bound last.TotalSales ((first.TotalSales - last.TotalSales) / 40) i)
        (quantileBYCA.bound last.TotalSales ((first.TotalSales - last.TotalSales) / 40) (i + 1))
        c)
  | _, _ => []

/-! ## Above-average filter -/

/-- The value `averageSales`: the running `float64` sum of the totals, from `0`,
divided by `float64(len(customers))`. A customer's `TotalSales` is the finite `float64`
value it holds. -/
def calculateAndInsertAboveAverageCustomers.averageSales (customers : List Customer) :
    Float64 :=
  let totalSales :=
    customers.foldl (fun totalSales c => Float64.add totalSales (.finite c.TotalSales))
      (.finite 0)
  Float64.div totalSales (Float64.ofNat customers.length)

/-- The rows that `calculateAndInsertAboveAverageCustomers` leaves in the table
`AboveAverageCustomers (CustomerID, TotalSales)`, which held `table` before. -/
def calculateAndInsertAboveAverageCustomers (table : List (Int × ℚ))
    (customers : List Customer) : List (Int × ℚ) :=
  let averageSales := calculateAndInsertAboveAverageCustomers.averageSales customers
  customers.foldl
    (fun table c =>
      if Float64.lt averageSales (.finite c.TotalSales) then
        table ++ [(c.CustomerID, c.TotalSales)]
      else table)
    table

/-- The arithmetic mean of the totals. -/
def arithmeticMean (customers : List Customer) : ℚ :=
  (customers.map Customer.TotalSales).sum / (customers.length : ℚ)

/-- No operation of `averageSales` rounds: every running sum, the length and the
quotient are `float64` values. -/
def calculateAndInsertAboveAverageCustomers.exact (customers : List Customer) : Prop :=
  (∀ k ∈ List.range (customers.length + 1),
    Float64.round ((customers.take k).map Customer.TotalSales).sum =
      .finite ((customers.take k).map Customer.TotalSales).sum) ∧
  Float64.round (customers.length : ℚ) = .finite (customers.length : ℚ) ∧
  Float64.round (arithmeticMean customers) = .finite (arithmeticMean customers)

/-! ## Top-customer table -/

/-- A row of the dated table `test_2024_<date>`, without its generated `ID`. -/
structure Row where
  CustomerID : Int
  INFO : String
  TotalSales : ℚ
  deriving DecidableEq, Repr

/-- The three statements that `createAndPopulateCustomerTable` executes per customer. -/
inductive Stmt where
  | update (totalSales : ℚ) (customerID : Int)
  | delete (customerID : Int)
  | insert (customerID : Int) (information : String) (totalSales : ℚ)
  deriving DecidableEq, Repr

/-- The query `SELECT EXISTS(SELECT 1 FROM t WHERE CustomerID = ?)`. -/
def sqlExists (table : List Row) (customerID : Int) : Bool :=
  table.any (fun r => decide (r.CustomerID = customerID))

/-- The effect of one statement on the table. -/
def Stmt.run (table : List Row) : Stmt → List Row
  | .update totalSales customerID =>
    table.map (fun r => if r.CustomerID = customerID then { r with TotalSales := totalSales } else r)
  | .delete customerID => table.filter (fun r => decide (r.CustomerID ≠ customerID))
  | .insert customerID information totalSales => table ++ [⟨customerID, information, totalSales⟩]

/-- The state threaded through the loop: the table, the map `topCustomers` and the
statements executed so far. -/
structure Store where
  table : List Row
  topCustomers : List (Int × Bool)
  executed : List Stmt
  deriving DecidableEq, Repr

/-- Execute a statement and record it. -/
def Store.exec (st : Store) (topCustomers : List (Int × Bool)) (q : Stmt) : Store :=
  { table := q.run st.table, topCustomers := topCustomers, executed := st.executed ++ [q] }

/-- One iteration of the loop `for i, c := range customers`. -/
def createAndPopulateCustomerTable.step (topPercent : Nat) (st : Store) (i : Nat)
    (c : Customer) : Store :=
  let topCustomers :=
    if i ≤ topPercent then mapSet st.topCustomers c.CustomerID true else st.topCustomers
  let isTop := (mapGet topCustomers c.CustomerID).getD false
  if sqlExists st.table c.CustomerID then
    if isTop then st.exec topCustomers (.update c.TotalSales c.CustomerID)
    else st.exec topCustomers (.delete c.CustomerID)
  else
    if isTop then st.exec topCustomers (.insert c.CustomerID c.Information c.TotalSales)
    else { st with topCustomers := topCustomers }

/-- The loop `for i, c := range customers`, from position `i` on. -/
def createAndPopulateCustomerTable.loop (topPercent : Nat) :
    Nat → List Customer → Store → Store
  | _, [], st => st
  | i, c :: rest, st =>
    createAndPopulateCustomerTable.loop topPercent (i + 1) rest
      (createAndPopulateCustomerTable.step topPercent st i c)

/-- The run of `createAndPopulateCustomerTable` on a table that holds `table`
(`CREATE TABLE IF NOT EXISTS` leaves an existing table as it is). -/
def createAndPopulateCustomerTable (table : List Row) (customers : List Customer) : Store :=
  createAndPopulateCustomerTable.loop (fortieth customers.length) 0 customers
    { table := table, topCustomers := [], executed := [] }

/-- The `CustomerID`s of the rows of a table. -/
def persistedIDs (table : List Row) : List Int := table.map Row.CustomerID

/-- The `CustomerID`s named by the `UPDATE` statements of a run. -/
def updatedIDs (executed : List Stmt) : List Int :=
  executed.filterMap (fun q => match q with | .update _ id => some id | _ => none)

/-- The `CustomerID`s named by the `DELETE` statements of a run. -/
def deletedIDs (executed : List Stmt) : List Int :=
  executed.filterMap (fun q => match q with | .delete id => some id | _ => none)

/-- The `CustomerID`s named by the `INSERT` statements of a run. -/
def insertedIDs (executed : List Stmt) : List Int :=
  executed.filterMap (fun q => match q with | .insert id _ _ => some id | _ => none)

/-- The top set: the `CustomerID`s at the ranks `0` to `int(0.025 * N)` inclusive. -/
def topSet (customers : List Customer) : List Int :=
  (customers.take (fortieth customers.length + 1)).map Customer.CustomerID

/-! ## Sample inputs -/

/-- The `float64` value written `0.7`. -/
def sevenTenths : ℚ := 3152519739159347 / 4503599627370496

/-- Forty customers with the same total `0.7`. -/
def equalSample : List Customer :=
  (List.range 40).map (fun i => ⟨(i : Int) + 1, "", sevenTenths⟩)

/-- A table that holds customer `2` before the run. -/
def staleTable : List Row := [⟨2, "b", 5⟩]

/-- A table that holds the customers `8` and `7` before the run. -/
def knownTable : List Row := [⟨8, "sms", 3⟩, ⟨7, "mail", 4⟩]

/-- A ranking of two customers. -/
def pairSample : List Customer := [⟨7, "mail", 10⟩, ⟨8, "sms", 6⟩]

/-- A ranking of two customers with the sales `80` and `40`. -/
def twoSample : List Customer := [⟨1, "a", 80⟩, ⟨2, "b", 40⟩]

/-- Five customers with the sales `100, 80, 80, 50, 10`. -/
def fiveSample : List Customer :=
  [⟨1, "", 100⟩, ⟨2, "", 80⟩, ⟨3, "", 80⟩, ⟨4, "", 50⟩, ⟨5, "", 10⟩]

/-- Forty ranked customers with the sales `40, 39, …, 1`. -/
def rankedSample : List Customer :=
  (List.range 40).map (fun i => ⟨(i : Int) + 1, "", 40 - (i : ℚ)⟩)

/-- Forty ranked customers with the sales `-1, -2, …, -40`. -/
def negativeSample : List Customer :=
  (List.range 40).map (fun i => ⟨(i : Int) + 1, "", -((i : ℚ) + 1)⟩)

/-- A ranking with a single customer. -/
def singleSample : List Customer := [⟨7, "mail", 10⟩]

/-- Four events of two customers; content `99` has no price. -/
def sampleEvents : List CustomerEvent :=
  [⟨1, 10, 2⟩, ⟨2, 11, 1⟩, ⟨1, 99, 5⟩, ⟨1, 10, 1⟩, ⟨3, 99, 4⟩]

/-- Channel data for customer `1` only. -/
def sampleCustomerData : List (Int × String) := [(1, "mail")]

/-- Prices of the contents `10` and `11`. -/
def samplePrices : List (Int × ℚ) := [(10, 5 / 2), (11, 4)]

/-- The records of the sample, in an order other than the order of insertion. -/
def sampleSales : List Customer := [⟨2, "", 4⟩, ⟨1, "mail", 15 / 2⟩]

/-- Two events whose contents have no entry in `samplePrices`. -/
def unpricedEvents : List CustomerEvent := [⟨3, 99, 4⟩, ⟨1, 98, 2⟩]

/-! ## Lemmas on Go maps -/

theorem mapGet_mapSet {K V : Type} [DecidableEq K] (m : List (K × V)) (k k' : K) (v : V) :
    mapGet (mapSet m k v) k' = if k = k' then some v else mapGet m k' := by
  induction m with
  | nil => simp [mapSet, mapGet]
  | cons p rest ih =>
    obtain ⟨a, b⟩ := p
    by_cases h : a = k
    · subst h
      by_cases h' : a = k' <;> simp [mapSet, mapGet, h']
    · by_cases h' : a = k'
      · subst h'
        simp [mapSet, mapGet, h, Ne.symm h]
      · simp [mapSet, mapGet, h, h', ih]

theorem mapGet_isSome_iff {K V : Type} [DecidableEq K] (m : List (K × V)) (k : K) :
    (mapGet m k).isSome ↔ k ∈ mapKeys m := by
  induction m with
  | nil => simp [mapGet, mapKeys]
  | cons p rest ih =>
    obtain ⟨a, b⟩ := p
    by_cases h : a = k
    · simp [mapGet, mapKeys, h]
    · have ih' := ih
      simp only [mapKeys] at ih'
      simp [mapGet, mapKeys, h, ih', Ne.symm h]

theorem mapGet_eq_none_iff {K V : Type} [DecidableEq K] (m : List (K × V)) (k : K) :
    mapGet m k = none ↔ k ∉ mapKeys m := by
  rw [← mapGet_isSome_iff]
  cases mapGet m k <;> simp

theorem mapKeys_mapSet {K V : Type} [DecidableEq K] (m : List (K × V)) (k : K) (v : V) :
    mapKeys (mapSet m k v) = if k ∈ mapKeys m then mapKeys m else mapKeys m ++ [k] := by
  induction m with
  | nil => simp [mapSet, mapKeys]
  | cons p rest ih =>
    obtain ⟨a, b⟩ := p
    simp only [mapKeys] at ih
    by_cases h : a = k
    · simp [mapSet, mapKeys, h]
    · by_cases hk : k ∈ List.map Prod.fst rest
      · simp [mapSet, mapKeys, h, ih, hk]
      · simp [mapSet, mapKeys, h, ih, hk, Ne.symm h]

theorem mapKeys_mapSet_nodup {K V : Type} [DecidableEq K] (m : List (K × V)) (k : K) (v : V)
    (h : (mapKeys m).Nodup) : (mapKeys (mapSet m k v)).Nodup := by
  rw [mapKeys_mapSet]
  split
  · exact h
  · rename_i hk
    exact List.Nodup.append h (List.nodup_singleton k) (by simpa using hk)

/-- Membership in a map with distinct keys is the same as a successful lookup. -/
theorem mem_iff_mapGet {K V : Type} [DecidableEq K] (m : List (K × V))
    (h : (mapKeys m).Nodup) (k : K) (v : V) :
    (k, v) ∈ m ↔ mapGet m k = some v := by
  induction m with
  | nil => simp [mapGet]
  | cons p rest ih =>
    obtain ⟨a, b⟩ := p
    simp only [mapKeys, List.map_cons, List.nodup_cons] at h
    have ih' := ih (by simpa [mapKeys] using h.2)
    by_cases hak : a = k
    · subst hak
      have : ∀ w, (a, w) ∉ rest := fun w hw => h.1 (List.mem_map.2 ⟨(a, w), hw, rfl⟩)
      simp [mapGet, this, eq_comm]
    · simp [mapGet, hak, ih', Ne.symm hak]

/-- Overwriting the entry of a present key changes a sum over the values by the difference. -/
theorem sum_mapSet_of_some {K V : Type} [DecidableEq K] (f : V → ℚ) (m : List (K × V))
    (k : K) (v old : V) (h : mapGet m k = some old) :
    ((mapValues (mapSet m k v)).map f).sum = ((mapValues m).map f).sum - f old + f v := by
  induction m with
  | nil => simp [mapGet] at h
  | cons p rest ih =>
    obtain ⟨a, b⟩ := p
    by_cases hak : a = k
    · simp only [mapGet, hak, if_true, Option.some.injEq] at h
      subst h
      simp [mapSet, mapValues, hak]
      ring
    · simp only [mapGet, hak, if_false] at h
      have ih' := ih h
      simp only [mapValues, List.map_map] at ih'
      simp [mapSet, mapValues, hak, ih']
      ring

/-- Adding an entry for an absent key adds its term to a sum over the values. -/
theorem sum_mapSet_of_none {K V : Type} [DecidableEq K] (f : V → ℚ) (m : List (K × V))
    (k : K) (v : V) (h : mapGet m k = none) :
    ((mapValues (mapSet m k v)).map f).sum = ((mapValues m).map f).sum + f v := by
  induction m with
  | nil => simp [mapSet, mapValues]
  | cons p rest ih =>
    obtain ⟨a, b⟩ := p
    by_cases hak : a = k
    · simp [mapGet, hak] at h
    · simp only [mapGet, hak, if_false] at h
      have ih' := ih h
      simp only [mapValues, List.map_map] at ih'
      simp [mapSet, mapValues, hak, ih']
      ring

/-! ## Sales aggregation: the accumulated map -/

theorem table_append (events : List CustomerEvent) (e : CustomerEvent)
    (customerData : List (Int × String)) (contentPrices : List (Int × ℚ)) :
    MakeCustomerSales.table (events ++ [e]) customerData contentPrices =
      MakeCustomerSales.step customerData contentPrices
        (MakeCustomerSales.table events customerData contentPrices) e := by
  simp [MakeCustomerSales.table, List.foldl_append]

theorem pricedTotal_append (contentPrices : List (Int × ℚ)) (es : List CustomerEvent)
    (e : CustomerEvent) :
    pricedTotal contentPrices (es ++ [e]) =
      pricedTotal contentPrices es +
        (if hasPrice contentPrices e then eventValue contentPrices e else 0) := by
  unfold pricedTotal
  by_cases h : hasPrice contentPrices e = true
  · simp [List.filter_append, List.filter_cons, h]
  · simp [List.filter_append, List.filter_cons, h]

theorem customerTotal_append (contentPrices : List (Int × ℚ)) (es : List CustomerEvent)
    (e : CustomerEvent) (id : Int) :
    customerTotal contentPrices (es ++ [e]) id =
      customerTotal contentPrices es id +
        (if e.CustomerID = id ∧ hasPrice contentPrices e = true
          then eventValue contentPrices e else 0) := by
  unfold customerTotal
  by_cases h : e.CustomerID = id
  · simp [List.filter_append, List.filter_cons, h, pricedTotal_append]
  · simp [List.filter_append, List.filter_cons, h]

theorem hasPricedEvent_append (contentPrices : List (Int × ℚ)) (es : List CustomerEvent)
    (e : CustomerEvent) (id : Int) :
    hasPricedEvent contentPrices (es ++ [e]) id =
      (hasPricedEvent contentPrices es id ||
        (decide (e.CustomerID = id) && hasPrice contentPrices e)) := by
  simp [hasPricedEvent, List.any_append]

theorem customerTotal_eq_zero (contentPrices : List (Int × ℚ)) (es : List CustomerEvent)
    (id : Int) (h : hasPricedEvent contentPrices es id = false) :
    customerTotal contentPrices es id = 0 := by
  induction es using List.reverseRecOn with
  | nil => simp [customerTotal, pricedTotal]
  | append_singleton es e ih =>
    rw [hasPricedEvent_append, Bool.or_eq_false_iff] at h
    rw [customerTotal_append, ih h.1]
    have h2 := h.2
    simp only [Bool.and_eq_false_imp, decide_eq_true_eq] at h2
    by_cases hid : e.CustomerID = id
    · simp [h2 hid]
    · simp [hid]

/-- The entry of every customer in the accumulated map, in closed form. -/
theorem table_lookup (events : List CustomerEvent) (customerData : List (Int × String))
    (contentPrices : List (Int × ℚ)) (id : Int) :
    mapGet (MakeCustomerSales.table events customerData contentPrices) id =
      if hasPricedEvent contentPrices events id = true then
        some { CustomerID := id
               Information := (mapGet customerData id).getD ""
               TotalSales := customerTotal contentPrices events id }
      else none := by
  induction events using List.reverseRecOn with
  | nil => simp [MakeCustomerSales.table, mapGet, hasPricedEvent]
  | append_singleton es e ih =>
    rw [table_append, hasPricedEvent_append, customerTotal_append]
    unfold MakeCustomerSales.step
    cases hp : mapGet contentPrices e.ContentID with
    | none =>
      have hf : hasPrice contentPrices e = false := by simp [hasPrice, hp]
      simp [hf, ih]
    | some price =>
      have ht : hasPrice contentPrices e = true := by simp [hasPrice, hp]
      have hv : eventValue contentPrices e = price * (e.Quantity : ℚ) := by
        simp [eventValue, hp]
      by_cases hid : e.CustomerID = id
      · subst hid
        cases hq : hasPricedEvent contentPrices es e.CustomerID with
        | true =>
          rw [hq] at ih
          simp [ih, mapGet_mapSet, ht, hv]
        | false =>
          rw [hq] at ih
          simp [ih, mapGet_mapSet, ht, hv, customerTotal_eq_zero _ _ _ hq]
      · cases hm : mapGet (MakeCustomerSales.table es customerData contentPrices)
            e.CustomerID <;>
          simp [mapGet_mapSet, hid, ih]

theorem table_keys_nodup (events : List CustomerEvent) (customerData : List (Int × String))
    (contentPrices : List (Int × ℚ)) :
    (mapKeys (MakeCustomerSales.table events customerData contentPrices)).Nodup := by
  induction events using List.reverseRecOn with
  | nil => simp [MakeCustomerSales.table, mapKeys]
  | append_singleton es e ih =>
    rw [table_append]
    unfold MakeCustomerSales.step
    cases mapGet contentPrices e.ContentID with
    | none => exact ih
    | some price =>
      cases mapGet (MakeCustomerSales.table es customerData contentPrices) e.CustomerID <;>
        exact mapKeys_mapSet_nodup _ _ _ ih

/-- Every entry of the accumulated map is the closed form of its key. -/
theorem table_entry (events : List CustomerEvent) (customerData : List (Int × String))
    (contentPrices : List (Int × ℚ)) (k : Int) (c : Customer)
    (h : (k, c) ∈ MakeCustomerSales.table events customerData contentPrices) :
    hasPricedEvent contentPrices events k = true ∧
      c = { CustomerID := k
            Information := (mapGet customerData k).getD ""
            TotalSales := customerTotal contentPrices events k } := by
  rw [mem_iff_mapGet _ (table_keys_nodup events customerData contentPrices), table_lookup] at h
  by_cases hq : hasPricedEvent contentPrices events k = true
  · simp only [hq, if_true, Option.some.injEq] at h
    exact ⟨hq, h.symm⟩
  · simp [hq] at h

/-- The customer identifiers of the returned records are the keys of the map. -/
theorem MakeCustomerSales_ids (events : List CustomerEvent)
    (customerData : List (Int × String)) (contentPrices : List (Int × ℚ)) :
    (MakeCustomerSales events customerData contentPrices).map Customer.CustomerID =
      mapKeys (MakeCustomerSales.table events customerData contentPrices) := by
  unfold MakeCustomerSales mapValues mapKeys
  rw [List.map_map]
  apply List.map_congr_left
  rintro ⟨k, c⟩ hkc
  have := (table_entry events customerData contentPrices k c hkc).2
  simp [this]

theorem table_sum (events : List CustomerEvent) (customerData : List (Int × String))
    (contentPrices : List (Int × ℚ)) :
    ((MakeCustomerSales events customerData contentPrices).map Customer.TotalSales).sum =
      pricedTotal contentPrices events := by
  unfold MakeCustomerSales
  induction events using List.reverseRecOn with
  | nil => simp [MakeCustomerSales.table, mapValues, pricedTotal]
  | append_singleton es e ih =>
    rw [table_append, pricedTotal_append]
    unfold MakeCustomerSales.step
    cases hp : mapGet contentPrices e.ContentID with
    | none =>
      have hf : hasPrice contentPrices e = false := by simp [hasPrice, hp]
      simp [hf, ih]
    | some price =>
      have ht : hasPrice contentPrices e = true := by simp [hasPrice, hp]
      have hv : eventValue contentPrices e = price * (e.Quantity : ℚ) := by
        simp [eventValue, hp]
      cases hm : mapGet (MakeCustomerSales.table es customerData contentPrices)
          e.CustomerID with
      | none =>
        simp only []
        rw [sum_mapSet_of_none _ _ _ _ hm, ih]
        simp [ht, hv]
      | some cust =>
        simp only []
        rw [sum_mapSet_of_some _ _ _ _ _ hm, ih]
        simp only [ht, hv, if_true]
        ring

/-! ## Sales aggregation: the claims -/

/-- C1: for every event list, price table and channel map, and every order in which
the map is ranged over, the sum of `TotalSales` over the records returned by
`MakeCustomerSales` equals the sum of `price(ContentID) × Quantity` over exactly the
events whose `ContentID` is a key of the price table. -/
theorem MakeCustomerSales_sum_eq_priced_events (events : List CustomerEvent)
    (customerData : List (Int × String)) (contentPrices : List (Int × ℚ))
    (out : List Customer)
    (hout : out.Perm (MakeCustomerSales events customerData contentPrices)) :
    (out.map Customer.TotalSales).sum =
      ((events.filter (fun e => (mapGet contentPrices e.ContentID).isSome)).map
        (fun e => (mapGet contentPrices e.ContentID).getD 0 * (e.Quantity : ℚ))).sum := by
  rw [(hout.map Customer.TotalSales).sum_eq, table_sum]
  rfl

theorem MakeCustomerSales_sum_eq_priced_events_witness :
    sampleSales.Perm (MakeCustomerSales sampleEvents sampleCustomerData samplePrices) ∧
    (sampleSales.map Customer.TotalSales).sum =
      ((sampleEvents.filter (fun e => (mapGet samplePrices e.ContentID).isSome)).map
        (fun e => (mapGet samplePrices e.ContentID).getD 0 * (e.Quantity : ℚ))).sum :=
  ⟨by decide!,
   MakeCustomerSales_sum_eq_priced_events sampleEvents sampleCustomerData samplePrices
     sampleSales (by decide!)⟩

/-- C2: every record `c` returned by `MakeCustomerSales` has `c.TotalSales` equal to the
sum of `price(ContentID) × Quantity` over the events of customer `c.CustomerID` whose
`ContentID` has a known price, and `c.Information` equal to the channel map's value for
`c.CustomerID`, or the empty string when the customer is absent from the channel map. -/
theorem MakeCustomerSales_record (events : List CustomerEvent)
    (customerData : List (Int × String)) (contentPrices : List (Int × ℚ))
    (out : List Customer)
    (hout : out.Perm (MakeCustomerSales events customerData contentPrices))
    (c : Customer) (hc : c ∈ out) :
    c.TotalSales =
      ((events.filter (fun e => decide (e.CustomerID = c.CustomerID) &&
          (mapGet contentPrices e.ContentID).isSome)).map
        (fun e => (mapGet contentPrices e.ContentID).getD 0 * (e.Quantity : ℚ))).sum ∧
    c.Information = (mapGet customerData c.CustomerID).getD "" := by
  have hc' : c ∈ MakeCustomerSales events customerData contentPrices := hout.mem_iff.1 hc
  obtain ⟨⟨k, c'⟩, hkc, rfl⟩ := List.mem_map.1 hc'
  obtain ⟨-, hrec⟩ := table_entry events customerData contentPrices k c' hkc
  constructor
  · simp only []
    rw [hrec]
    simp only [customerTotal, pricedTotal, List.filter_filter]
    congr 2
    apply List.filter_congr
    intro e _
    simp [hasPrice, Bool.and_comm]
  · simp only []
    rw [hrec]

theorem MakeCustomerSales_record_witness :
    sampleSales.Perm (MakeCustomerSales sampleEvents sampleCustomerData samplePrices) ∧
    (⟨1, "mail", 15 / 2⟩ : Customer) ∈ sampleSales ∧
    ((⟨1, "mail", 15 / 2⟩ : Customer).TotalSales =
      ((sampleEvents.filter (fun e =>
          decide (e.CustomerID = (⟨1, "mail", 15 / 2⟩ : Customer).CustomerID) &&
          (mapGet samplePrices e.ContentID).isSome)).map
        (fun e => (mapGet samplePrices e.ContentID).getD 0 * (e.Quantity : ℚ))).sum ∧
     (⟨1, "mail", 15 / 2⟩ : Customer).Information =
      (mapGet sampleCustomerData (⟨1, "mail", 15 / 2⟩ : Customer).CustomerID).getD "") :=
  ⟨by decide!, by decide!,
   MakeCustomerSales_record sampleEvents sampleCustomerData samplePrices sampleSales
     (by decide!) ⟨1, "mail", 15 / 2⟩ (by decide!)⟩

/-- C3: the `CustomerID`s of the records returned by `MakeCustomerSales` are pairwise
distinct, and a `CustomerID` appears among them if and only if at least one event of
that customer has a `ContentID` present in the price table. -/
theorem MakeCustomerSales_ids_distinct_and_exact (events : List CustomerEvent)
    (customerData : List (Int × String)) (contentPrices : List (Int × ℚ))
    (out : List Customer)
    (hout : out.Perm (MakeCustomerSales events customerData contentPrices)) :
    (out.map Customer.CustomerID).Nodup ∧
    ∀ id : Int, id ∈ out.map Customer.CustomerID ↔
      ∃ e ∈ events, e.CustomerID = id ∧ (mapGet contentPrices e.ContentID).isSome = true := by
  have hperm := hout.map Customer.CustomerID
  rw [MakeCustomerSales_ids] at hperm
  refine ⟨hperm.nodup_iff.2 (table_keys_nodup events customerData contentPrices), ?_⟩
  intro id
  rw [hperm.mem_iff, ← mapGet_isSome_iff, table_lookup]
  by_cases hq : hasPricedEvent contentPrices events id = true
  · simp only [hq, if_true, Option.isSome_some, true_iff]
    simpa [hasPricedEvent, hasPrice] using hq
  · simp only [hq]
    simpa [hasPricedEvent, hasPrice] using hq

theorem MakeCustomerSales_ids_distinct_and_exact_witness :
    sampleSales.Perm (MakeCustomerSales sampleEvents sampleCustomerData samplePrices) ∧
    ((sampleSales.map Customer.CustomerID).Nodup ∧
     ∀ id : Int, id ∈ sampleSales.map Customer.CustomerID ↔
      ∃ e ∈ sampleEvents, e.CustomerID = id ∧
        (mapGet samplePrices e.ContentID).isSome = true) :=
  ⟨by decide!,
   MakeCustomerSales_ids_distinct_and_exact sampleEvents sampleCustomerData samplePrices
     sampleSales (by decide!)⟩

/-! ## Ranking: the claim -/

theorem sortSlice_insert_perm {α : Type} (less : α → α → Bool) (a : α) (l : List α) :
    (sortSlice.insert less a l).Perm (a :: l) := by
  induction l with
  | nil => simp [sortSlice.insert]
  | cons b l ih =>
    unfold sortSlice.insert
    split
    · exact List.Perm.refl _
    · exact (List.Perm.cons b ih).trans (List.Perm.swap a b l)

theorem sortSlice_perm {α : Type} (less : α → α → Bool) (l : List α) :
    (sortSlice less l).Perm l := by
  induction l with
  | nil => simp [sortSlice]
  | cons a l ih =>
    unfold sortSlice
    exact (sortSlice_insert_perm less a _).trans (List.Perm.cons a ih)

theorem rank_insert_sorted (a : Customer) (l : List Customer)
    (h : l.Pairwise (fun x y => x.TotalSales ≥ y.TotalSales)) :
    (sortSlice.insert fetchCustomers.less a l).Pairwise
      (fun x y => x.TotalSales ≥ y.TotalSales) := by
  induction l with
  | nil => simp [sortSlice.insert]
  | cons b l ih =>
    rw [List.pairwise_cons] at h
    unfold sortSlice.insert
    by_cases hab : fetchCustomers.less a b = true
    · rw [if_pos hab, List.pairwise_cons, List.pairwise_cons]
      have hgt : a.TotalSales > b.TotalSales := by
        simpa [fetchCustomers.less] using hab
      refine ⟨?_, h.1, h.2⟩
      intro y hy
      rcases List.mem_cons.1 hy with rfl | hy
      · exact le_of_lt hgt
      · exact le_trans (h.1 y hy) (le_of_lt hgt)
    · rw [if_neg hab, List.pairwise_cons]
      have hle : a.TotalSales ≤ b.TotalSales := by
        simpa [fetchCustomers.less] using hab
      refine ⟨?_, ih h.2⟩
      intro y hy
      rcases List.mem_cons.1 ((sortSlice_insert_perm _ a l).mem_iff.1 hy) with rfl | hy
      · exact hle
      · exact h.1 y hy

/-- C4: the ranking step of `fetchCustomers` (the sort of the aggregated customers by the
comparator `TotalSales[i] > TotalSales[j]`) returns, for every aggregated customer list,
a permutation of that list in which `TotalSales` is non-increasing from rank 0 onward. -/
theorem fetchCustomers_rank_perm_sorted (customers : List Customer) :
    (fetchCustomers.rank customers).Perm customers ∧
    (fetchCustomers.rank customers).Pairwise (fun x y => x.TotalSales ≥ y.TotalSales) := by
  refine ⟨sortSlice_perm _ _, ?_⟩
  unfold fetchCustomers.rank
  induction customers with
  | nil => simp [sortSlice]
  | cons a l ih =>
    unfold sortSlice
    exact rank_insert_sorted a _ ih

/-! ## Scheme A -/

theorem add_NumberOfCustomers (info : QuantileInfo) (c : Customer) :
    (info.add c).NumberOfCustomers = info.NumberOfCustomers + 1 := by
  simp only [QuantileInfo.add]
  split <;> rfl

theorem totalCount_mapSet (m : List (String × QuantileInfo)) (k : String) (v : QuantileInfo) :
    totalCount (mapSet m k v) + ((mapGet m k).getD QuantileInfo.zero).NumberOfCustomers =
      totalCount m + v.NumberOfCustomers := by
  induction m with
  | nil => simp [totalCount, mapSet, mapGet, mapValues, QuantileInfo.zero]
  | cons p rest ih =>
    obtain ⟨a, b⟩ := p
    by_cases hak : a = k
    · simp [totalCount, mapSet, mapGet, mapValues, hak]
      omega
    · simp only [totalCount, mapValues] at ih
      simp only [totalCount, mapSet, mapGet, mapValues, hak, if_false, List.map_cons,
        List.sum_cons]
      omega

/-- With a non-zero bucket size the loop ends and counts every remaining customer once. -/
theorem quantiles_loop_count (quantileSize : Nat) (hq : quantileSize ≠ 0)
    (rest : List Customer) (i : Nat) (Map : List (String × QuantileInfo)) :
    ∃ m, createAndPopulateQuantilesTable.loop quantileSize i rest Map = some m ∧
      totalCount m = totalCount Map + rest.length := by
  induction rest generalizing i Map with
  | nil => exact ⟨Map, rfl, by simp⟩
  | cons c rest ih =>
    unfold createAndPopulateQuantilesTable.loop
    simp only [createAndPopulateQuantilesTable.step, createAndPopulateQuantilesTable.index,
      goDiv, hq, if_false]
    obtain ⟨m, hm, hcount⟩ := ih (i + 1)
      (mapSet Map
        (createAndPopulateQuantilesTable.label (if i / quantileSize ≥ 40 then 39
          else i / quantileSize))
        (((mapGet Map
          (createAndPopulateQuantilesTable.label (if i / quantileSize ≥ 40 then 39
            else i / quantileSize))).getD QuantileInfo.zero).add c))
    refine ⟨m, hm, ?_⟩
    have h1 := totalCount_mapSet Map
      (createAndPopulateQuantilesTable.label (if i / quantileSize ≥ 40 then 39
        else i / quantileSize))
      (((mapGet Map
        (createAndPopulateQuantilesTable.label (if i / quantileSize ≥ 40 then 39
          else i / quantileSize))).getD QuantileInfo.zero).add c)
    rw [add_NumberOfCustomers] at h1
    rw [hcount, List.length_cons]
    omega

/-- With a bucket size of zero the first iteration of the loop panics. -/
theorem quantiles_small_panics (customers : List Customer)
    (h1 : 1 ≤ customers.length) (h40 : customers.length < 40) :
    createAndPopulateQuantilesTable customers = none := by
  cases customers with
  | nil => simp at h1
  | cons c rest =>
    have hz : fortieth (c :: rest).length = 0 := by
      unfold fortieth
      exact Nat.div_eq_of_lt h40
    unfold createAndPopulateQuantilesTable
    rw [hz]
    simp [createAndPopulateQuantilesTable.loop, createAndPopulateQuantilesTable.step,
      createAndPopulateQuantilesTable.index, goDiv]

/-- C5: for every ranked customer list of length `N ≥ 40`, the bucket map of Scheme A is
built without a panic and the sum of `NumberOfCustomers` over its buckets equals `N`. -/
theorem createAndPopulateQuantilesTable_counts_sum (customers : List Customer)
    (h : 40 ≤ customers.length) :
    ∃ m, createAndPopulateQuantilesTable customers = some m ∧
      ((mapValues m).map QuantileInfo.NumberOfCustomers).sum = customers.length := by
  have hq : fortieth customers.length ≠ 0 := by
    unfold fortieth
    exact Nat.pos_iff_ne_zero.1 (Nat.div_pos h (by decide))
  obtain ⟨m, hm, hcount⟩ := quantiles_loop_count _ hq customers 0 []
  refine ⟨m, hm, ?_⟩
  simpa [totalCount, mapValues] using hcount

theorem createAndPopulateQuantilesTable_counts_sum_witness :
    40 ≤ rankedSample.length ∧
    ∃ m, createAndPopulateQuantilesTable rankedSample = some m ∧
      ((mapValues m).map QuantileInfo.NumberOfCustomers).sum = rankedSample.length :=
  ⟨by decide!, createAndPopulateQuantilesTable_counts_sum rankedSample (by decide!)⟩

/-- C9: on a ranking with a single customer the bucket size `int(0.025 * 1)` is zero and
the first division `i / quantileSize` of `createAndPopulateQuantilesTable` panics: the
bucket computation does not complete, and nothing guards the division. -/
theorem createAndPopulateQuantilesTable_single_panics :
    fortieth singleSample.length = 0 ∧
    createAndPopulateQuantilesTable.index (fortieth singleSample.length) 0 = none ∧
    createAndPopulateQuantilesTable singleSample = none := by
  decide!

/-- C10, as stated, fails: on the ranking with sales `-1, -2, …, -40` every bucket of
Scheme A holds one customer, whose negative `TotalSales` is the maximum of the bucket,
and records `MaxSales = 0`, the zero value the accumulator starts from. -/
theorem createAndPopulateQuantilesTable_negative_max :
    (createAndPopulateQuantilesTable negativeSample).map
        (List.map (fun p => (p.2.NumberOfCustomers, p.2.MaxSales,
          (createAndPopulateQuantilesTable.members negativeSample p.1).map
            Customer.TotalSales))) =
      some ((List.range 40).map (fun i => (1, 0, [-((i : ℚ) + 1)]))) := by
  decide!

/-! ## Scheme B -/

/-- The lower bound of every range is at least `minCA`, and the test is strict there:
a customer whose sales do not exceed those of the last customer lies in no range. -/
theorem quantileBYCA_lowest_in_no_range (customers : List Customer) (first last c : Customer)
    (h0 : goIndex customers 0 = some first)
    (hl : goIndex customers ((customers.length : Int) - 1) = some last)
    (hle : last.TotalSales ≤ first.TotalSales) (hc : c.TotalSales ≤ last.TotalSales) :
    quantileBYCA.rangesOf customers c = [] := by
  unfold quantileBYCA.rangesOf
  rw [h0, hl]
  simp only [List.filter_eq_nil_iff]
  intro i _
  have hw : 0 ≤ (first.TotalSales - last.TotalSales) / 40 :=
    div_nonneg (sub_nonneg.2 hle) (by norm_num)
  have hi : (0 : ℚ) ≤ (i : ℚ) := Nat.cast_nonneg i
  have hb : last.TotalSales ≤
      quantileBYCA.bound last.TotalSales ((first.TotalSales - last.TotalSales) / 40) i := by
    unfold quantileBYCA.bound
    have := mul_nonneg hw hi
    linarith
  simp only [quantileBYCA.inRange, Bool.and_eq_true, decide_eq_true_eq, not_and, gt_iff_lt]
  intro hgt
  exact absurd (lt_of_le_of_lt (le_trans hc hb) hgt) (lt_irrefl _)

/-- C6: on the ranking with sales `80, 40` the forty ranges of `quantileBYCA` are
`(40, 41], …, (79, 80]`: the customer with sales `80` lies in the range of index `39`
only, the customer with sales `40`, the minimum, lies in no range, and the bucket
counts sum to `1`, not to `N = 2`. -/
theorem quantileBYCA_minimum_in_no_bucket :
    twoSample.map (quantileBYCA.rangesOf twoSample) = [[39], []] ∧
    (quantileBYCA twoSample).map totalCount = some 1 ∧
    twoSample.length = 2 := by
  decide!

/-! ## Above-average filter -/

theorem foldl_insert_if {α β : Type} (p : α → Bool) (f : α → β) (l : List α)
    (table : List β) :
    l.foldl (fun table c => if p c = true then table ++ [f c] else table) table =
      table ++ (l.filter p).map f := by
  induction l generalizing table with
  | nil => simp
  | cons c rest ih =>
    simp only [List.foldl_cons, ih, List.filter_cons]
    by_cases hp : p c = true <;> simp [hp]

/-- When no running sum rounds, the `float64` sum of the totals is their exact sum. -/
theorem foldl_add_exact (customers : List Customer)
    (h : ∀ k ∈ List.range (customers.length + 1),
      Float64.round ((customers.take k).map Customer.TotalSales).sum =
        .finite ((customers.take k).map Customer.TotalSales).sum) :
    customers.foldl (fun totalSales c => Float64.add totalSales (.finite c.TotalSales))
        (.finite 0) =
      .finite (customers.map Customer.TotalSales).sum := by
  induction customers using List.reverseRecOn with
  | nil => rfl
  | append_singleton l c ih =>
    have hl : ∀ k ∈ List.range (l.length + 1),
        Float64.round ((l.take k).map Customer.TotalSales).sum =
          .finite ((l.take k).map Customer.TotalSales).sum := by
      intro k hk
      have hk' : k ≤ l.length := Nat.lt_succ_iff.1 (List.mem_range.1 hk)
      have := h k (List.mem_range.2 (by simp; omega))
      rwa [List.take_append_of_le_length hk'] at this
    have hlast := h (l ++ [c]).length (List.mem_range.2 (Nat.lt_succ_self _))
    rw [List.take_length] at hlast
    rw [List.foldl_append, ih hl]
    simp only [List.foldl_cons, List.foldl_nil, Float64.add]
    rw [← hlast]
    simp

/-- When nothing rounds, `averageSales` is the arithmetic mean. -/
theorem averageSales_exact (customers : List Customer) (hne : customers ≠ [])
    (hex : calculateAndInsertAboveAverageCustomers.exact customers) :
    calculateAndInsertAboveAverageCustomers.averageSales customers =
      .finite (arithmeticMean customers) := by
  obtain ⟨hsum, hlen, hquot⟩ := hex
  have hpos : (customers.length : ℚ) ≠ 0 := by
    have : 0 < customers.length := List.length_pos.2 hne
    exact_mod_cast Nat.pos_iff_ne_zero.1 this
  unfold calculateAndInsertAboveAverageCustomers.averageSales
  simp only [foldl_add_exact customers hsum, Float64.ofNat, hlen, Float64.div, hpos, if_false]
  exact hquot

/-- C7, amended: for every non-empty customer list, the rows that
`calculateAndInsertAboveAverageCustomers` inserts are, in order, exactly the customers
whose `TotalSales` is strictly greater than `averageSales`, the `float64` quotient of the
running `float64` sum of all `TotalSales` by `N`; when none of these operations rounds,
`averageSales` is the arithmetic mean and the inserted customers are exactly those
strictly above the mean; for the sales `100, 80, 80, 50, 10` nothing rounds, the mean is
`64` and the inserted sales are `100, 80, 80`. -/
theorem calculateAndInsertAboveAverageCustomers_selects_above_averageSales
    (table : List (Int × ℚ)) (customers : List Customer) (hne : customers ≠ []) :
    calculateAndInsertAboveAverageCustomers table customers =
      table ++ (customers.filter (fun c =>
        Float64.lt (calculateAndInsertAboveAverageCustomers.averageSales customers)
          (.finite c.TotalSales))).map (fun c => (c.CustomerID, c.TotalSales)) ∧
    (calculateAndInsertAboveAverageCustomers.exact customers →
      calculateAndInsertAboveAverageCustomers.averageSales customers =
        .finite (arithmeticMean customers) ∧
      calculateAndInsertAboveAverageCustomers table customers =
        table ++ (customers.filter (fun c =>
          decide (c.TotalSales > arithmeticMean customers))).map
          (fun c => (c.CustomerID, c.TotalSales))) ∧
    (calculateAndInsertAboveAverageCustomers.averageSales fiveSample = .finite 64 ∧
      arithmeticMean fiveSample = 64 ∧
      (calculateAndInsertAboveAverageCustomers [] fiveSample).map Prod.snd =
        [100, 80, 80]) := by
  have hsel : calculateAndInsertAboveAverageCustomers table customers =
      table ++ (customers.filter (fun c =>
        Float64.lt (calculateAndInsertAboveAverageCustomers.averageSales customers)
          (.finite c.TotalSales))).map (fun c => (c.CustomerID, c.TotalSales)) := by
    unfold calculateAndInsertAboveAverageCustomers
    exact foldl_insert_if
      (fun c : Customer =>
        Float64.lt (calculateAndInsertAboveAverageCustomers.averageSales customers)
          (.finite c.TotalSales))
      (fun c : Customer => (c.CustomerID, c.TotalSales)) customers table
  refine ⟨hsel, ?_, by decide!⟩
  intro hex
  have havg := averageSales_exact customers hne hex
  refine ⟨havg, ?_⟩
  rw [hsel, havg]
  rfl

theorem calculateAndInsertAboveAverageCustomers_selects_above_averageSales_witness :
    fiveSample ≠ [] ∧
    (calculateAndInsertAboveAverageCustomers [(9, 1)] fiveSample =
      [(9, 1)] ++ (fiveSample.filter (fun c =>
        Float64.lt (calculateAndInsertAboveAverageCustomers.averageSales fiveSample)
          (.finite c.TotalSales))).map (fun c => (c.CustomerID, c.TotalSales)) ∧
    (calculateAndInsertAboveAverageCustomers.exact fiveSample →
      calculateAndInsertAboveAverageCustomers.averageSales fiveSample =
        .finite (arithmeticMean fiveSample) ∧
      calculateAndInsertAboveAverageCustomers [(9, 1)] fiveSample =
        [(9, 1)] ++ (fiveSample.filter (fun c =>
          decide (c.TotalSales > arithmeticMean fiveSample))).map
          (fun c => (c.CustomerID, c.TotalSales))) ∧
    (calculateAndInsertAboveAverageCustomers.averageSales fiveSample = .finite 64 ∧
      arithmeticMean fiveSample = 64 ∧
      (calculateAndInsertAboveAverageCustomers [] fiveSample).map Prod.snd =
        [100, 80, 80])) :=
  ⟨by decide!,
   calculateAndInsertAboveAverageCustomers_selects_above_averageSales [(9, 1)] fiveSample
     (by decide!)⟩

/-- C7, as stated, fails: forty customers hold the same total `0.7`, a `float64` value;
none is strictly above the arithmetic mean, which is `0.7`, yet the running `float64` sum
divided by `40` is below `0.7` and all forty customers are inserted. -/
theorem calculateAndInsertAboveAverageCustomers_equal_totals :
    equalSample.length = 40 ∧
    Float64.round sevenTenths = .finite sevenTenths ∧
    arithmeticMean equalSample = sevenTenths ∧
    equalSample.filter (fun c => decide (c.TotalSales > arithmeticMean equalSample)) = [] ∧
    calculateAndInsertAboveAverageCustomers.averageSales equalSample =
      .finite (3152519739159345 / 4503599627370496) ∧
    calculateAndInsertAboveAverageCustomers [] equalSample =
      equalSample.map (fun c => (c.CustomerID, c.TotalSales)) := by
  decide!

/-! ## Top-customer table: the effect of one statement -/

theorem sqlExists_iff (table : List Row) (k : Int) :
    sqlExists table k = true ↔ k ∈ persistedIDs table := by
  simp [sqlExists, persistedIDs]

theorem persistedIDs_update (table : List Row) (s : ℚ) (k : Int) :
    persistedIDs (Stmt.run table (.update s k)) = persistedIDs table := by
  simp only [persistedIDs, Stmt.run, List.map_map]
  apply List.map_congr_left
  intro r _
  by_cases h : r.CustomerID = k <;> simp [h]

theorem mem_persistedIDs_delete (table : List Row) (k id : Int) :
    id ∈ persistedIDs (Stmt.run table (.delete k)) ↔ id ∈ persistedIDs table ∧ id ≠ k := by
  simp only [persistedIDs, Stmt.run, List.mem_map, List.mem_filter, decide_eq_true_eq]
  constructor
  · rintro ⟨r, ⟨hr, hne⟩, rfl⟩
    exact ⟨⟨r, hr, rfl⟩, hne⟩
  · rintro ⟨⟨r, hr, rfl⟩, hne⟩
    exact ⟨r, ⟨hr, hne⟩, rfl⟩

theorem mem_persistedIDs_insert (table : List Row) (k : Int) (info : String) (s : ℚ)
    (id : Int) :
    id ∈ persistedIDs (Stmt.run table (.insert k info s)) ↔ id ∈ persistedIDs table ∨ id = k := by
  simp [persistedIDs, Stmt.run]

/-- The effect of one iteration on a customer that `topCustomers` does not hold yet. -/
theorem customerTable_step_spec (topPercent : Nat) (st : Store) (i : Nat) (c : Customer)
    (hfresh : mapGet st.topCustomers c.CustomerID = none) :
    (createAndPopulateCustomerTable.step topPercent st i c).topCustomers =
      (if i ≤ topPercent then mapSet st.topCustomers c.CustomerID true
        else st.topCustomers) ∧
    (∀ id, id ∈ persistedIDs (createAndPopulateCustomerTable.step topPercent st i c).table ↔
      (id ≠ c.CustomerID ∧ id ∈ persistedIDs st.table) ∨
        (id = c.CustomerID ∧ i ≤ topPercent)) ∧
    (∀ id, id ∈ updatedIDs (createAndPopulateCustomerTable.step topPercent st i c).executed ↔
      id ∈ updatedIDs st.executed ∨
        (id = c.CustomerID ∧ c.CustomerID ∈ persistedIDs st.table ∧ i ≤ topPercent)) ∧
    (∀ id, id ∈ deletedIDs (createAndPopulateCustomerTable.step topPercent st i c).executed ↔
      id ∈ deletedIDs st.executed ∨
        (id = c.CustomerID ∧ c.CustomerID ∈ persistedIDs st.table ∧ ¬ i ≤ topPercent)) ∧
    (∀ id, id ∈ insertedIDs (createAndPopulateCustomerTable.step topPercent st i c).executed ↔
      id ∈ insertedIDs st.executed ∨
        (id = c.CustomerID ∧ c.CustomerID ∉ persistedIDs st.table ∧ i ≤ topPercent)) := by
  by_cases hex : sqlExists st.table c.CustomerID = true
  · have hP : c.CustomerID ∈ persistedIDs st.table := (sqlExists_iff _ _).1 hex
    by_cases htop : i ≤ topPercent
    · have hstep : createAndPopulateCustomerTable.step topPercent st i c =
          st.exec (mapSet st.topCustomers c.CustomerID true)
            (.update c.TotalSales c.CustomerID) := by
        simp [createAndPopulateCustomerTable.step, hex, htop, mapGet_mapSet]
      rw [hstep]
      refine ⟨by simp [Store.exec, htop], ?_, ?_, ?_, ?_⟩
      · intro id
        simp only [Store.exec, persistedIDs_update]
        by_cases hid : id = c.CustomerID
        · subst hid; simp [hP, htop]
        · simp [hid]
      · intro id
        simp [Store.exec, updatedIDs, List.filterMap_append, hP, htop]
      · intro id
        simp [Store.exec, deletedIDs, List.filterMap_append, htop]
      · intro id
        simp [Store.exec, insertedIDs, List.filterMap_append, hP]
    · have hstep : createAndPopulateCustomerTable.step topPercent st i c =
          st.exec st.topCustomers (.delete c.CustomerID) := by
        simp [createAndPopulateCustomerTable.step, hex, htop, hfresh]
      rw [hstep]
      refine ⟨by simp [Store.exec, htop], ?_, ?_, ?_, ?_⟩
      · intro id
        simp only [Store.exec, mem_persistedIDs_delete]
        by_cases hid : id = c.CustomerID
        · subst hid; simp [htop]
        · simp [hid]
      · intro id
        simp [Store.exec, updatedIDs, List.filterMap_append, htop]
      · intro id
        simp [Store.exec, deletedIDs, List.filterMap_append, hP, htop]
      · intro id
        simp [Store.exec, insertedIDs, List.filterMap_append, hP]
  · have hP : c.CustomerID ∉ persistedIDs st.table := fun h => hex ((sqlExists_iff _ _).2 h)
    by_cases htop : i ≤ topPercent
    · have hstep : createAndPopulateCustomerTable.step topPercent st i c =
          st.exec (mapSet st.topCustomers c.CustomerID true)
            (.insert c.CustomerID c.Information c.TotalSales) := by
        simp [createAndPopulateCustomerTable.step, hex, htop, mapGet_mapSet]
      rw [hstep]
      refine ⟨by simp [Store.exec, htop], ?_, ?_, ?_, ?_⟩
      · intro id
        simp only [Store.exec, mem_persistedIDs_insert]
        by_cases hid : id = c.CustomerID
        · subst hid; simp [htop]
        · simp [hid]
      · intro id
        simp [Store.exec, updatedIDs, List.filterMap_append, hP]
      · intro id
        simp [Store.exec, deletedIDs, List.filterMap_append, hP]
      · intro id
        simp [Store.exec, insertedIDs, List.filterMap_append, hP, htop]
    · have hstep : createAndPopulateCustomerTable.step topPercent st i c =
          { st with topCustomers := st.topCustomers } := by
        simp [createAndPopulateCustomerTable.step, hex, htop, hfresh]
      rw [hstep]
      refine ⟨by simp [htop], ?_, ?_, ?_, ?_⟩
      · intro id
        by_cases hid : id = c.CustomerID
        · subst hid; simp [htop, hP]
        · simp [hid]
      · intro id
        simp [hP]
      · intro id
        simp [hP]
      · intro id
        simp [htop]

/-! ## Top-customer table: the loop -/

theorem take_top_cons (topPercent i : Nat) (c : Customer) (rest : List Customer) :
    ((c :: rest).take (topPercent + 1 - i)).map Customer.CustomerID =
      if i ≤ topPercent then
        c.CustomerID :: (rest.take (topPercent + 1 - (i + 1))).map Customer.CustomerID
      else [] := by
  by_cases h : i ≤ topPercent
  · have h1 : topPercent + 1 - i = (topPercent + 1 - (i + 1)) + 1 := by omega
    rw [if_pos h, h1, List.take_succ_cons, List.map_cons]
  · have h1 : topPercent + 1 - i = 0 := by omega
    rw [if_neg h, h1]
    rfl

theorem take_top_of_gt (topPercent i : Nat) (rest : List Customer) (h : ¬ i ≤ topPercent) :
    (rest.take (topPercent + 1 - (i + 1))).map Customer.CustomerID = [] := by
  have h1 : topPercent + 1 - (i + 1) = 0 := by omega
  rw [h1]
  rfl

theorem mem_take_ids (n : Nat) (rest : List Customer) (id : Int)
    (h : id ∈ (rest.take n).map Customer.CustomerID) : id ∈ rest.map Customer.CustomerID := by
  obtain ⟨c, hc, rfl⟩ := List.mem_map.1 h
  exact List.mem_map.2 ⟨c, List.mem_of_mem_take hc, rfl⟩

/-- The loop from position `i` on, for customers with distinct identifiers none of which
`topCustomers` holds yet. -/
theorem customerTable_loop_spec (topPercent : Nat) (rest : List Customer) (i : Nat)
    (st : Store) (hnd : (rest.map Customer.CustomerID).Nodup)
    (hfresh : ∀ c ∈ rest, mapGet st.topCustomers c.CustomerID = none) :
    (∀ id, id ∈ persistedIDs (createAndPopulateCustomerTable.loop topPercent i rest st).table ↔
      id ∈ (rest.take (topPercent + 1 - i)).map Customer.CustomerID ∨
        (id ∈ persistedIDs st.table ∧ id ∉ rest.map Customer.CustomerID)) ∧
    (∀ id, id ∈ updatedIDs (createAndPopulateCustomerTable.loop topPercent i rest st).executed ↔
      id ∈ updatedIDs st.executed ∨
        (id ∈ persistedIDs st.table ∧
          id ∈ (rest.take (topPercent + 1 - i)).map Customer.CustomerID)) ∧
    (∀ id, id ∈ deletedIDs (createAndPopulateCustomerTable.loop topPercent i rest st).executed ↔
      id ∈ deletedIDs st.executed ∨
        (id ∈ persistedIDs st.table ∧ id ∈ rest.map Customer.CustomerID ∧
          id ∉ (rest.take (topPercent + 1 - i)).map Customer.CustomerID)) ∧
    (∀ id, id ∈ insertedIDs (createAndPopulateCustomerTable.loop topPercent i rest st).executed ↔
      id ∈ insertedIDs st.executed ∨
        (id ∈ (rest.take (topPercent + 1 - i)).map Customer.CustomerID ∧
          id ∉ persistedIDs st.table)) := by
  induction rest generalizing i st with
  | nil =>
    simp [createAndPopulateCustomerTable.loop]
  | cons c rest ih =>
    rw [List.map_cons, List.nodup_cons] at hnd
    obtain ⟨hk, hnd'⟩ := hnd
    have hfc : mapGet st.topCustomers c.CustomerID = none := hfresh c (List.mem_cons_self _ _)
    obtain ⟨htc, hP, hU, hD, hI⟩ := customerTable_step_spec topPercent st i c hfc
    have hfresh' : ∀ c' ∈ rest,
        mapGet (createAndPopulateCustomerTable.step topPercent st i c).topCustomers
          c'.CustomerID = none := by
      intro c' hc'
      have hne : c.CustomerID ≠ c'.CustomerID := fun h =>
        hk (h ▸ List.mem_map.2 ⟨c', hc', rfl⟩)
      rw [htc]
      split
      · rw [mapGet_mapSet, if_neg hne]
        exact hfresh c' (List.mem_cons_of_mem _ hc')
      · exact hfresh c' (List.mem_cons_of_mem _ hc')
    obtain ⟨ihP, ihU, ihD, ihI⟩ :=
      ih (i + 1) (createAndPopulateCustomerTable.step topPercent st i c) hnd' hfresh'
    have hktop : c.CustomerID ∉
        (rest.take (topPercent + 1 - (i + 1))).map Customer.CustomerID :=
      fun h => hk (mem_take_ids _ _ _ h)
    have hsub : ∀ id, id ∈ (rest.take (topPercent + 1 - (i + 1))).map Customer.CustomerID →
        id ∈ rest.map Customer.CustomerID := fun id h => mem_take_ids _ _ _ h
    have hkA : ∀ id, id = c.CustomerID → id ∉ rest.map Customer.CustomerID :=
      fun id h => h ▸ hk
    unfold createAndPopulateCustomerTable.loop
    rw [take_top_cons]
    by_cases htop : i ≤ topPercent
    · simp only [if_pos htop, List.map_cons, List.mem_cons]
      refine ⟨?_, ?_, ?_, ?_⟩
      · intro id
        have h1 := hkA id
        have h2 := hsub id
        rw [ihP, hP]
        clear ih hfresh hfresh' htc hP hU hD hI ihP ihU ihD ihI hkA hsub hktop hnd' hfc hk
        tauto
      · intro id
        have h1 := hkA id
        have h2 := hsub id
        rw [ihU, hU, hP]
        clear ih hfresh hfresh' htc hP hU hD hI ihP ihU ihD ihI hkA hsub hktop hnd' hfc hk
        by_cases hid : id = c.CustomerID
        · subst hid; tauto
        · tauto
      · intro id
        have h1 := hkA id
        have h2 := hsub id
        rw [ihD, hD, hP]
        clear ih hfresh hfresh' htc hP hU hD hI ihP ihU ihD ihI hkA hsub hktop hnd' hfc hk
        tauto
      · intro id
        have h1 := hkA id
        have h2 := hsub id
        rw [ihI, hI, hP]
        clear ih hfresh hfresh' htc hP hU hD hI ihP ihU ihD ihI hkA hsub hktop hnd' hfc hk
        by_cases hid : id = c.CustomerID
        · subst hid; tauto
        · tauto
    · have hnil := take_top_of_gt topPercent i rest htop
      simp only [if_neg htop, List.map_cons, List.mem_cons, List.not_mem_nil]
      refine ⟨?_, ?_, ?_, ?_⟩
      · intro id
        have h1 := hkA id
        rw [ihP, hP, hnil]
        simp only [List.not_mem_nil]
        clear ih hfresh hfresh' htc hP hU hD hI ihP ihU ihD ihI hkA hsub hktop hnd' hfc hk
        tauto
      · intro id
        rw [ihU, hU, hnil]
        simp only [List.not_mem_nil]
        clear ih hfresh hfresh' htc hP hU hD hI ihP ihU ihD ihI hkA hsub hktop hnd' hfc hk
        tauto
      · intro id
        have h1 := hkA id
        rw [ihD, hD, hP, hnil]
        simp only [List.not_mem_nil]
        clear ih hfresh hfresh' htc hP hU hD hI ihP ihU ihD ihI hkA hsub hktop hnd' hfc hk
        by_cases hid : id = c.CustomerID
        · subst hid; tauto
        · tauto
      · intro id
        rw [ihI, hI, hnil]
        simp only [List.not_mem_nil]
        clear ih hfresh hfresh' htc hP hU hD hI ihP ihU ihD ihI hkA hsub hktop hnd' hfc hk
        tauto

/-! ## Top-customer table: the claim -/

/-- The statements that the loop executes, for every ranked customer list with distinct
`CustomerID`s and every previously persisted table, with `P` the persisted `CustomerID`s
and `T` the customers at the ranks `0` to `floor(0.025·N)` inclusive: the rows updated
are exactly `P ∩ T`, the rows inserted are exactly `T − P`, the rows deleted are the
members of `P − T` that occur in the customer list, and the table ends with `T` and the
members of `P` that the loop never visits. -/
theorem createAndPopulateCustomerTable_reconciles (table : List Row)
    (customers : List Customer) (hnd : (customers.map Customer.CustomerID).Nodup) :
    (∀ id, id ∈ updatedIDs (createAndPopulateCustomerTable table customers).executed ↔
      id ∈ persistedIDs table ∧ id ∈ topSet customers) ∧
    (∀ id, id ∈ deletedIDs (createAndPopulateCustomerTable table customers).executed ↔
      (id ∈ persistedIDs table ∧ id ∉ topSet customers) ∧
        id ∈ customers.map Customer.CustomerID) ∧
    (∀ id, id ∈ insertedIDs (createAndPopulateCustomerTable table customers).executed ↔
      id ∈ topSet customers ∧ id ∉ persistedIDs table) ∧
    (∀ id, id ∈ persistedIDs (createAndPopulateCustomerTable table customers).table ↔
      id ∈ topSet customers ∨
        (id ∈ persistedIDs table ∧ id ∉ customers.map Customer.CustomerID)) ∧
    ((∀ id ∈ persistedIDs table, id ∈ customers.map Customer.CustomerID) →
      ∀ id, id ∈ persistedIDs (createAndPopulateCustomerTable table customers).table ↔
        id ∈ topSet customers) := by
  obtain ⟨hP, hU, hD, hI⟩ := customerTable_loop_spec (fortieth customers.length) customers 0
    { table := table, topCustomers := [], executed := [] } hnd (by simp [mapGet])
  simp only [Nat.sub_zero, updatedIDs, deletedIDs, insertedIDs, List.filterMap_nil,
    List.not_mem_nil, false_or] at hP hU hD hI
  refine ⟨?_, ?_, ?_, ?_, ?_⟩
  · intro id
    exact hU id
  · intro id
    rw [createAndPopulateCustomerTable, deletedIDs, hD id, topSet]
    tauto
  · intro id
    exact hI id
  · intro id
    exact hP id
  · intro hsub id
    rw [createAndPopulateCustomerTable, hP id, topSet]
    have := hsub id
    tauto

theorem createAndPopulateCustomerTable_reconciles_witness :
    (pairSample.map Customer.CustomerID).Nodup ∧
    ((∀ id, id ∈ updatedIDs (createAndPopulateCustomerTable knownTable pairSample).executed ↔
      id ∈ persistedIDs knownTable ∧ id ∈ topSet pairSample) ∧
    (∀ id, id ∈ deletedIDs (createAndPopulateCustomerTable knownTable pairSample).executed ↔
      (id ∈ persistedIDs knownTable ∧ id ∉ topSet pairSample) ∧
        id ∈ pairSample.map Customer.CustomerID) ∧
    (∀ id, id ∈ insertedIDs (createAndPopulateCustomerTable knownTable pairSample).executed ↔
      id ∈ topSet pairSample ∧ id ∉ persistedIDs knownTable) ∧
    (∀ id, id ∈ persistedIDs (createAndPopulateCustomerTable knownTable pairSample).table ↔
      id ∈ topSet pairSample ∨
        (id ∈ persistedIDs knownTable ∧ id ∉ pairSample.map Customer.CustomerID)) ∧
    ((∀ id ∈ persistedIDs knownTable, id ∈ pairSample.map Customer.CustomerID) →
      ∀ id, id ∈ persistedIDs (createAndPopulateCustomerTable knownTable pairSample).table ↔
        id ∈ topSet pairSample)) :=
  ⟨by decide!, createAndPopulateCustomerTable_reconciles knownTable pairSample (by decide!)⟩

/-- A persisted customer that does not occur in the ranking is never visited by the loop:
no `DELETE` names it and its row is still in the table after the run. -/
theorem customerTable_stale_row_survives (table : List Row) (customers : List Customer)
    (hnd : (customers.map Customer.CustomerID).Nodup) (id : Int)
    (hP : id ∈ persistedIDs table) (hA : id ∉ customers.map Customer.CustomerID) :
    id ∉ topSet customers ∧
    id ∉ deletedIDs (createAndPopulateCustomerTable table customers).executed ∧
    id ∈ persistedIDs (createAndPopulateCustomerTable table customers).table := by
  obtain ⟨-, hD, -, hF, -⟩ := createAndPopulateCustomerTable_reconciles table customers hnd
  have hT : id ∉ topSet customers := fun h => hA (mem_take_ids _ _ _ h)
  refine ⟨hT, ?_, ?_⟩
  · intro h
    exact hA ((hD id).1 h).2
  · exact (hF id).2 (Or.inr ⟨hP, hA⟩)

/-- C8: with the single customer `7` in the ranking and customer `2` persisted before the
run, the top set is `7` alone and `2` is in `P − T`; the run executes one `INSERT` and no
`DELETE`, and the table holds `2` and `7` afterwards, not the top set: the rows deleted
are not `P − T` and the persisted `CustomerID`s are not `T`. -/
theorem createAndPopulateCustomerTable_keeps_stale_row :
    (singleSample.map Customer.CustomerID).Nodup ∧
    (createAndPopulateCustomerTable staleTable singleSample).executed =
      [Stmt.insert 7 "mail" 10] ∧
    persistedIDs (createAndPopulateCustomerTable staleTable singleSample).table = [2, 7] ∧
    topSet singleSample = [7] ∧
    ¬ ((∀ id, id ∈ updatedIDs (createAndPopulateCustomerTable staleTable singleSample).executed ↔
        id ∈ persistedIDs staleTable ∧ id ∈ topSet singleSample) ∧
      (∀ id, id ∈ deletedIDs (createAndPopulateCustomerTable staleTable singleSample).executed ↔
        id ∈ persistedIDs staleTable ∧ id ∉ topSet singleSample) ∧
      (∀ id, id ∈ insertedIDs (createAndPopulateCustomerTable staleTable singleSample).executed ↔
        id ∈ topSet singleSample ∧ id ∉ persistedIDs staleTable) ∧
      (∀ id, id ∈ persistedIDs (createAndPopulateCustomerTable staleTable singleSample).table ↔
        id ∈ topSet singleSample)) := by
  refine ⟨by decide!, by decide!, by decide!, by decide!, ?_⟩
  rintro ⟨-, -, -, hF⟩
  have h2 : (2 : Int) ∈ topSet singleSample := (hF 2).1 (by decide!)
  exact absurd h2 (by decide!)

/-! ## Scheme B: the two indexings -/

theorem goIndex_isSome_iff {α : Type} (s : List α) (i : Int) :
    (goIndex s i).isSome = true ↔ 0 ≤ i ∧ i < (s.length : Int) := by
  unfold goIndex
  by_cases h : 0 ≤ i ∧ i < (s.length : Int)
  · rw [if_pos h]
    have hlt : i.toNat < s.length := by omega
    simp [List.getElem?_eq_getElem hlt, h]
  · rw [if_neg h]
    simp [h]

/-- Events without a known price leave the accumulated map as it is. -/
theorem foldl_step_unpriced (customerData : List (Int × String))
    (contentPrices : List (Int × ℚ)) (events : List CustomerEvent)
    (h : ∀ e ∈ events, (mapGet contentPrices e.ContentID).isSome = false)
    (acc : List (Int × Customer)) :
    events.foldl (MakeCustomerSales.step customerData contentPrices) acc = acc := by
  induction events generalizing acc with
  | nil => rfl
  | cons e rest ih =>
    have he : mapGet contentPrices e.ContentID = none := by
      have := h e (List.mem_cons_self _ _)
      cases hm : mapGet contentPrices e.ContentID with
      | none => rfl
      | some p => simp [hm] at this
    have hstep : MakeCustomerSales.step customerData contentPrices acc e = acc := by
      simp [MakeCustomerSales.step, he]
    rw [List.foldl_cons, hstep]
    exact ih (fun e' he' => h e' (List.mem_cons_of_mem _ he')) acc

/-- Without a priced event `fetchCustomers` returns the empty slice. -/
theorem fetchCustomers_unpriced (events : List CustomerEvent)
    (customerData : List (Int × String)) (contentPrices : List (Int × ℚ))
    (h : ∀ e ∈ events, (mapGet contentPrices e.ContentID).isSome = false) :
    fetchCustomers events customerData contentPrices = [] := by
  unfold fetchCustomers MakeCustomerSales MakeCustomerSales.table
  rw [foldl_step_unpriced customerData contentPrices events h []]
  rfl

/-- C11: the bucket computation of `quantileBYCA` reads `customers[0]` and
`customers[len-1]` without a length check: both indexings are in range, and the
computation succeeds, if and only if the customer list is non-empty; when it succeeds
the map is the result of the forty iterations `i = 0, …, 39` for the bounds taken from
the first and the last customer; on the empty list, which `fetchCustomers` returns
when no event has a known price, it panics instead of returning an empty map. -/
theorem quantileBYCA_succeeds_iff_nonempty (customers : List Customer) :
    (((goIndex customers 0).isSome = true ∧
        (goIndex customers ((customers.length : Int) - 1)).isSome = true) ↔
      customers ≠ []) ∧
    ((quantileBYCA customers).isSome = true ↔ customers ≠ []) ∧
    (∀ first last : Customer, goIndex customers 0 = some first →
      goIndex customers ((customers.length : Int) - 1) = some last →
      quantileBYCA customers =
        some ((List.range 40).foldl
          (quantileBYCA.step customers last.TotalSales
            ((first.TotalSales - last.TotalSales) / 40)) []) ∧
      (List.range 40).length = 40) ∧
    (quantileBYCA [] = none ∧ quantileBYCA [] ≠ some []) ∧
    (∀ (events : List CustomerEvent) (customerData : List (Int × String))
        (contentPrices : List (Int × ℚ)),
      (∀ e ∈ events, (mapGet contentPrices e.ContentID).isSome = false) →
      quantileBYCA (fetchCustomers events customerData contentPrices) = none) := by
  have hlen : customers ≠ [] ↔ 0 < customers.length :=
    ⟨List.length_pos.2, List.length_pos.1⟩
  have hidx : ((goIndex customers 0).isSome = true ∧
        (goIndex customers ((customers.length : Int) - 1)).isSome = true) ↔
      customers ≠ [] := by
    rw [goIndex_isSome_iff, goIndex_isSome_iff, hlen]
    omega
  have hrun : ∀ first last : Customer, goIndex customers 0 = some first →
      goIndex customers ((customers.length : Int) - 1) = some last →
      quantileBYCA customers =
        some ((List.range 40).foldl
          (quantileBYCA.step customers last.TotalSales
            ((first.TotalSales - last.TotalSales) / 40)) []) := by
    intro first last h0 hl
    unfold quantileBYCA
    simp only [h0, hl]
  have hempty : quantileBYCA ([] : List Customer) = none := rfl
  refine ⟨hidx, ?_, ?_, ⟨hempty, ?_⟩, ?_⟩
  · constructor
    · intro hsome hnil
      rw [hnil, hempty] at hsome
      simp at hsome
    · intro hne
      obtain ⟨h0, hl⟩ := hidx.2 hne
      obtain ⟨first, hfirst⟩ := Option.isSome_iff_exists.1 h0
      obtain ⟨last, hlast⟩ := Option.isSome_iff_exists.1 hl
      rw [hrun first last hfirst hlast]
      rfl
  · intro first last h0 hl
    exact ⟨hrun first last h0 hl, List.length_range 40⟩
  · rw [hempty]
    simp
  · intro events customerData contentPrices h
    rw [fetchCustomers_unpriced events customerData contentPrices h]
    exact hempty

theorem quantileBYCA_succeeds_iff_nonempty_witness :
    twoSample ≠ [] ∧
    (quantileBYCA twoSample).isSome = true ∧
    (∀ e ∈ unpricedEvents, (mapGet samplePrices e.ContentID).isSome = false) ∧
    quantileBYCA (fetchCustomers unpricedEvents sampleCustomerData samplePrices) = none :=
  ⟨by decide!,
   (quantileBYCA_succeeds_iff_nonempty twoSample).2.1.2 (by decide!),
   by decide!,
   (quantileBYCA_succeeds_iff_nonempty twoSample).2.2.2.2 unpricedEvents sampleCustomerData
     samplePrices (by decide!)⟩

/-! ## Scheme A: the content of a bucket -/

theorem add_MaxSales (info : QuantileInfo) (c : Customer) :
    (info.add c).MaxSales = max info.MaxSales c.TotalSales := by
  simp only [QuantileInfo.add]
  by_cases h : c.TotalSales > info.MaxSales
  · rw [if_pos h]
    exact (max_eq_right (le_of_lt h)).symm
  · rw [if_neg h]
    exact (max_eq_left (not_lt.1 h)).symm

theorem members_eq_membersFrom (customers : List Customer) (quantile : String) :
    createAndPopulateQuantilesTable.members customers quantile =
      createAndPopulateQuantilesTable.membersFrom (fortieth customers.length) 0 customers
        quantile := rfl

theorem membersFrom_cons (quantileSize i index : Nat) (c : Customer) (rest : List Customer)
    (quantile : String)
    (hidx : createAndPopulateQuantilesTable.index quantileSize i = some index) :
    createAndPopulateQuantilesTable.membersFrom quantileSize i (c :: rest) quantile =
      if createAndPopulateQuantilesTable.label index = quantile then
        c :: createAndPopulateQuantilesTable.membersFrom quantileSize (i + 1) rest quantile
      else createAndPopulateQuantilesTable.membersFrom quantileSize (i + 1) rest quantile := by
  unfold createAndPopulateQuantilesTable.membersFrom
  rw [List.enumFrom_cons, List.filter_cons]
  simp only [hidx]
  by_cases h : createAndPopulateQuantilesTable.label index = quantile
  · simp [h]
  · simp [h]

theorem mem_of_mem_membersFrom (quantileSize i : Nat) (rest : List Customer)
    (quantile : String) (c : Customer)
    (h : c ∈ createAndPopulateQuantilesTable.membersFrom quantileSize i rest quantile) :
    c ∈ rest := by
  unfold createAndPopulateQuantilesTable.membersFrom at h
  obtain ⟨⟨j, c'⟩, hp, rfl⟩ := List.mem_map.1 h
  obtain ⟨-, -, h3⟩ := List.mem_enumFrom (List.mem_of_mem_filter hp)
  simp only [h3]
  exact List.getElem_mem _

/-- With a non-zero bucket size the loop ends, keeps the keys distinct, and leaves under
every key what filing the members of that key, in rank order, produces. -/
theorem quantiles_loop_buckets (quantileSize : Nat) (hq : quantileSize ≠ 0)
    (rest : List Customer) (i : Nat) (Map : List (String × QuantileInfo))
    (hnd : (mapKeys Map).Nodup) :
    ∃ m, createAndPopulateQuantilesTable.loop quantileSize i rest Map = some m ∧
      (mapKeys m).Nodup ∧
      ∀ quantile, mapGet m quantile =
        QuantileInfo.fileUnder (mapGet Map quantile)
          (createAndPopulateQuantilesTable.membersFrom quantileSize i rest quantile) := by
  induction rest generalizing i Map with
  | nil =>
    refine ⟨Map, rfl, hnd, ?_⟩
    intro quantile
    rfl
  | cons c rest ih =>
    have hidx : createAndPopulateQuantilesTable.index quantileSize i =
        some (if i / quantileSize ≥ 40 then 39 else i / quantileSize) := by
      simp [createAndPopulateQuantilesTable.index, goDiv, hq]
    unfold createAndPopulateQuantilesTable.loop
    simp only [createAndPopulateQuantilesTable.step, hidx]
    obtain ⟨m, hm, hmnd, hget⟩ := ih (i + 1)
      (mapSet Map
        (createAndPopulateQuantilesTable.label (if i / quantileSize ≥ 40 then 39
          else i / quantileSize))
        (((mapGet Map
          (createAndPopulateQuantilesTable.label (if i / quantileSize ≥ 40 then 39
            else i / quantileSize))).getD QuantileInfo.zero).add c))
      (mapKeys_mapSet_nodup _ _ _ hnd)
    refine ⟨m, hm, hmnd, ?_⟩
    intro quantile
    rw [hget quantile, membersFrom_cons quantileSize i _ c rest quantile hidx, mapGet_mapSet]
    by_cases h : createAndPopulateQuantilesTable.label
        (if i / quantileSize ≥ 40 then 39 else i / quantileSize) = quantile
    · rw [if_pos h, if_pos h, ← h]
      rfl
    · rw [if_neg h, if_neg h]

theorem fileUnder_cons_ne_none (o : Option QuantileInfo) (c : Customer) (l : List Customer) :
    QuantileInfo.fileUnder o (c :: l) ≠ none := by
  induction l generalizing o c with
  | nil => simp [QuantileInfo.fileUnder]
  | cons d l ih =>
    rw [QuantileInfo.fileUnder]
    exact ih _ d

/-- The `MaxSales` left by filing `l` under a key: at least the previous value, at least
every filed total, and either the previous value or one of the filed totals. -/
theorem fileUnder_MaxSales (o : Option QuantileInfo) (l : List Customer) (r : QuantileInfo)
    (h : QuantileInfo.fileUnder o l = some r) :
    (o.getD QuantileInfo.zero).MaxSales ≤ r.MaxSales ∧
    (∀ c ∈ l, c.TotalSales ≤ r.MaxSales) ∧
    (r.MaxSales = (o.getD QuantileInfo.zero).MaxSales ∨
      ∃ c ∈ l, c.TotalSales = r.MaxSales) := by
  induction l generalizing o with
  | nil =>
    simp only [QuantileInfo.fileUnder] at h
    subst h
    simp
  | cons d l ih =>
    rw [QuantileInfo.fileUnder] at h
    obtain ⟨h1, h2, h3⟩ := ih _ h
    simp only [Option.getD_some, add_MaxSales] at h1 h3
    refine ⟨le_trans (le_max_left _ _) h1, ?_, ?_⟩
    · intro c hc
      rcases List.mem_cons.1 hc with rfl | hc
      · exact le_trans (le_max_right _ _) h1
      · exact h2 c hc
    · rcases h3 with h3 | ⟨c, hc, hcr⟩
      · rcases le_total (o.getD QuantileInfo.zero).MaxSales d.TotalSales with hle | hle
        · right
          exact ⟨d, List.mem_cons_self _ _, by rw [h3, max_eq_right hle]⟩
        · left
          rw [h3, max_eq_left hle]
      · right
        exact ⟨c, List.mem_cons_of_mem _ hc, hcr⟩

/-- C10, amended: for every ranked customer list of length `N ≥ 40` whose `TotalSales`
are all non-negative, the bucket map of Scheme A is built, and every bucket in it holds
at least one customer and records as `MaxSales` the maximum `TotalSales` among the
customers assigned to it: one of them has that total and none has more. -/
theorem createAndPopulateQuantilesTable_max_of_bucket (customers : List Customer)
    (h : 40 ≤ customers.length) (hnn : ∀ c ∈ customers, 0 ≤ c.TotalSales) :
    ∃ m, createAndPopulateQuantilesTable customers = some m ∧
      ∀ p ∈ m,
        createAndPopulateQuantilesTable.members customers p.1 ≠ [] ∧
        (∃ c ∈ createAndPopulateQuantilesTable.members customers p.1,
          c.TotalSales = p.2.MaxSales) ∧
        (∀ c ∈ createAndPopulateQuantilesTable.members customers p.1,
          c.TotalSales ≤ p.2.MaxSales) := by
  have hq : fortieth customers.length ≠ 0 := by
    unfold fortieth
    exact Nat.pos_iff_ne_zero.1 (Nat.div_pos h (by decide))
  obtain ⟨m, hm, hmnd, hget⟩ :=
    quantiles_loop_buckets _ hq customers 0 [] (by simp [mapKeys])
  refine ⟨m, hm, ?_⟩
  rintro ⟨quantile, info⟩ hp
  have hlook : mapGet m quantile = some info := (mem_iff_mapGet m hmnd quantile info).1 hp
  rw [hget quantile] at hlook
  simp only [mapGet] at hlook
  rw [← members_eq_membersFrom] at hlook
  have hne : createAndPopulateQuantilesTable.members customers quantile ≠ [] := by
    intro hnil
    rw [hnil] at hlook
    simp [QuantileInfo.fileUnder] at hlook
  obtain ⟨h0, hub, hatt⟩ := fileUnder_MaxSales _ _ _ hlook
  simp only [Option.getD_none, QuantileInfo.zero] at h0 hatt
  refine ⟨hne, ?_, hub⟩
  rcases hatt with hzero | hatt
  · obtain ⟨c, l, hcl⟩ := List.exists_cons_of_ne_nil hne
    have hc : c ∈ createAndPopulateQuantilesTable.members customers quantile := by
      rw [hcl]
      exact List.mem_cons_self _ _
    have hcust : c ∈ customers := by
      rw [members_eq_membersFrom] at hc
      exact mem_of_mem_membersFrom _ _ _ _ _ hc
    refine ⟨c, hc, le_antisymm (hub c hc) ?_⟩
    rw [hzero]
    exact hnn c hcust
  · exact hatt

theorem createAndPopulateQuantilesTable_max_of_bucket_witness :
    40 ≤ rankedSample.length ∧ (∀ c ∈ rankedSample, 0 ≤ c.TotalSales) ∧
    ∃ m, createAndPopulateQuantilesTable rankedSample = some m ∧
      ∀ p ∈ m,
        createAndPopulateQuantilesTable.members rankedSample p.1 ≠ [] ∧
        (∃ c ∈ createAndPopulateQuantilesTable.members rankedSample p.1,
          c.TotalSales = p.2.MaxSales) ∧
        (∀ c ∈ createAndPopulateQuantilesTable.members rankedSample p.1,
          c.TotalSales ≤ p.2.MaxSales) :=
  ⟨by decide!, by decide!,
   createAndPopulateQuantilesTable_max_of_bucket rankedSample (by decide!) (by decide!)⟩

end customeranalysis

